import Mathlib

/-!
Verification model of the batch-processing and preview engine of the
ffmpeg-gui repository (src/main.rs).

Modelling conventions (shallow embedding):
* Rust `&str` / `String` values are modelled as `List Char`;
* Rust `f32` / `f64` values are modelled as exact rationals `ℚ`
  (ffmpeg progress times and the egui frame clock are decimal quantities,
  and no claim depends on float rounding);
* fallible operations return `Option`; a Rust `unwrap()` panic is
  modelled as propagating `none`;
* the effectful batch worker thread (main.rs:588-602) is modelled as the
  trace of shared-state writes and child-process invocations it performs.
-/

/-- Test for an ASCII decimal digit `'0'..'9'`, the digit class used by the
Rust numeric parsers that the source calls. -/
def isDigitCh (c : Char) : Bool :=
  48 ≤ c.toNat && c.toNat ≤ 57

/-- Model of Rust `str::split(sep)` for a one-character separator: the list
of (possibly empty) chunks between occurrences of `sep`. On an empty string
it yields one empty chunk, like the Rust iterator. -/
def splitOnChar (sep : Char) : List Char → List (List Char)
  | [] => [[]]
  | c :: rest =>
    if c = sep then
      [] :: splitOnChar sep rest
    else
      match splitOnChar sep rest with
      | [] => [[c]]
      | p :: ps => (c :: p) :: ps

/-- Model of Rust `str::split("time=")` as used in `parse_ffmpeg_progress`
(main.rs:817): chunks between leftmost non-overlapping occurrences of the
five-character marker `time=`. -/
def splitOnTime : List Char → List (List Char)
  | 't' :: 'i' :: 'm' :: 'e' :: '=' :: rest => [] :: splitOnTime rest
  | c :: rest =>
    match splitOnTime rest with
    | [] => [[c]]
    | p :: ps => (c :: p) :: ps
  | [] => [[]]

/-- Model of `line.contains("time=")` (main.rs:816). -/
def containsTime : List Char → Bool
  | 't' :: 'i' :: 'm' :: 'e' :: '=' :: _ => true
  | _ :: rest => containsTime rest
  | [] => false

/-- Numeric value of a list of ASCII digits, most significant first. -/
def digitsToNat (l : List Char) : Nat :=
  l.foldl (fun acc c => acc * 10 + (c.toNat - 48)) 0

/-- All characters are ASCII digits. -/
def allDigits (l : List Char) : Bool :=
  l.all isDigitCh

/-- Model of Rust `str::parse::<f32>()` (main.rs:822-830) on an unsigned
token: plain decimal literals `digits`, `digits.digits`, `.digits` or
`digits.` succeed, everything else fails. The exponent, `inf` and `nan`
forms of the Rust grammar never occur in ffmpeg `time=` fields and are
omitted; the float value is modelled as the exact rational it denotes. -/
def parseUDec (l : List Char) : Option ℚ :=
  match splitOnChar '.' l with
  | [ip] =>
    if !ip.isEmpty && allDigits ip then
      some ((digitsToNat ip : ℚ))
    else none
  | [ip, fp] =>
    if (!ip.isEmpty || !fp.isEmpty) && allDigits ip && allDigits fp then
      some ((digitsToNat ip : ℚ) + (digitsToNat fp : ℚ) / (10 : ℚ) ^ fp.length)
    else none
  | _ => none

/-- Model of Rust `str::parse::<f32>()` including the optional leading
sign accepted by the Rust grammar (the empty string fails). -/
def parseDec (l : List Char) : Option ℚ :=
  match l with
  | [] => none
  | c :: rest =>
    if c = '-' then (parseUDec rest).map (fun q => -q)
    else if c = '+' then parseUDec rest
    else parseUDec (c :: rest)

/-- Core of `parse_ffmpeg_progress` (main.rs:818-834): split the extracted
token on `':'`; three parts are read as HH:MM:SS[.ms], two parts as
MM:SS[.ms]; the total seconds are divided by 100; any other shape or any
part failing to parse yields `none`. -/
def timeTokenToProgress (tok : List Char) : Option ℚ :=
  match splitOnChar ':' tok with
  | [p0, p1, p2] =>
    match parseDec p0, parseDec p1, parseDec p2 with
    | some h, some m, some s => some ((h * 3600 + m * 60 + s) / 100)
    | _, _, _ => none
  | [p0, p1] =>
    match parseDec p0, parseDec p1 with
    | some m, some s => some ((m * 60 + s) / 100)
    | _, _ => none
  | _ => none

/-- Model of `parse_ffmpeg_progress` (main.rs:814-838). When the line
contains the marker `time=`, `split("time=").nth(1)` is the text between
the first occurrence and the next occurrence or the end of the line, and
`split(' ').next()` is its prefix up to the first space. -/
def parse_ffmpeg_progress (line : List Char) : Option ℚ :=
  if containsTime line then
    match (splitOnTime line).get? 1 with
    | none => none
    | some after =>
      match (splitOnChar ' ' after).head? with
      | none => none
      | some tok => timeTokenToProgress tok
  else none

/-- One step of the progress-monitor thread (main.rs:791-800): a stderr
line that parses overwrites `ProcessingState.progress` with the parsed
value, any other line leaves it unchanged. -/
def updateProgress (p : ℚ) (line : List Char) : ℚ :=
  match parse_ffmpeg_progress line with
  | some q => q
  | none => p

/-- Value of `ProcessingState.progress` after the progress-monitor thread
has consumed the given stderr lines, starting from the default `0.0`. -/
def progressAfter (lines : List (List Char)) : ℚ :=
  lines.foldl updateProgress 0

/-- Numeric value of a single ASCII digit character. -/
def digitVal (c : Char) : Option Nat :=
  if isDigitCh c then some (c.toNat - 48) else none

/-- One field of a `chrono::NaiveTime` string: one or two decimal digits. -/
def parseTimeField (l : List Char) : Option Nat :=
  match l with
  | [c] => digitVal c
  | [c1, c2] =>
    match digitVal c1, digitVal c2 with
    | some d1, some d2 => some (d1 * 10 + d2)
    | _, _ => none
  | _ => none

/-- Model of `chrono::NaiveTime::from_str` as used by `compare_times`
(main.rs:735-736), restricted to the `H:M:S` strings this UI produces:
three colon-separated fields of one or two digits with hour < 24,
minute < 60, second < 60, returning the number of seconds since midnight.
Fractional-second and leap-second forms of chrono's grammar are not
produced by this UI and are omitted. -/
def parse_naive_time (l : List Char) : Option Nat :=
  match splitOnChar ':' l with
  | [hp, mp, sp] =>
    match parseTimeField hp, parseTimeField mp, parseTimeField sp with
    | some h, some m, some s =>
      if h < 24 && m < 60 && s < 60 then some (h * 3600 + m * 60 + s) else none
    | _, _, _ => none
  | _ => none

/-- Model of `compare_times` (main.rs:734-739). The source calls
`NaiveTime::from_str(..).unwrap()` on both arguments and compares; the
panic of `unwrap` on a failed parse is modelled as `none`. Comparing two
`NaiveTime`s equals comparing their seconds-since-midnight counts. -/
def compare_times (t1 t2 : List Char) : Option Ordering :=
  match parse_naive_time t1, parse_naive_time t2 with
  | some a, some b => some (compare a b)
  | _, _ => none

/-- Two-digit zero-padded rendering of a value below 100. -/
def twoDigits (v : Nat) : List Char :=
  [Char.ofNat (48 + v / 10), Char.ofNat (48 + v % 10)]

/-- A well-formed `HH:MM:SS` string with two-digit zero-padded fields. -/
def renderHMS (h m s : Nat) : List Char :=
  twoDigits h ++ ':' :: (twoDigits m ++ ':' :: twoDigits s)

/-- The `BatchTask` record (main.rs:60-67). -/
structure BatchTask where
  input_path : List Char
  output_path : List Char
  start_time : List Char
  end_time : List Char
  rotation : Int
deriving DecidableEq

/-- One observable action of the batch worker thread: a write of the shared
processing flag, a write of `ProcessingState.message`, a write of
`ProcessingState.progress`, or an invocation of `process_task`. -/
inductive BatchEv where
  | flag (b : Bool)
  | msg (s : List Char)
  | prog (q : ℚ)
  | invoke (t : BatchTask)
deriving DecidableEq

/-- The per-task status message `"处理中: <input>"` (main.rs:591). -/
def processingMsg (t : BatchTask) : List Char :=
  "处理中: ".toList ++ t.input_path

/-- The error status message `"错误: <e>"` (main.rs:593). -/
def errorMsg (e : List Char) : List Char :=
  "错误: ".toList ++ e

/-- The completion status message `"处理完成"` (main.rs:598). -/
def doneMsg : List Char :=
  "处理完成".toList

/-- Trace of the `for task in tasks` loop of the worker thread
(main.rs:590-596), given the result of each `process_task` invocation:
publish the processing message, invoke the task; on error publish the
error message and break. The loop body reads no other shared state — in
particular it never reads the `processing` flag. -/
def taskLoopEvents (run : BatchTask → Except (List Char) Unit) :
    List BatchTask → List BatchEv
  | [] => []
  | t :: ts =>
    BatchEv.msg (processingMsg t) :: BatchEv.invoke t ::
      match run t with
      | Except.ok _ => taskLoopEvents run ts
      | Except.error e => [BatchEv.msg (errorMsg e)]

/-- Full trace of the worker thread spawned by `process_control`
(main.rs:588-602): set the processing flag, run the task loop, then
unconditionally publish `"处理完成"`, reset progress to `0` and clear the
flag. -/
def batchWorkerEvents (run : BatchTask → Except (List Char) Unit)
    (tasks : List BatchTask) : List BatchEv :=
  BatchEv.flag true ::
    (taskLoopEvents run tasks ++
      [BatchEv.msg doneMsg, BatchEv.prog 0, BatchEv.flag false])

/-- Shape of the loop trace over a prefix of tasks whose runner invocations
all succeed: a processing message and an invocation per task. -/
def okEvents : List BatchTask → List BatchEv
  | [] => []
  | t :: ts => BatchEv.msg (processingMsg t) :: BatchEv.invoke t :: okEvents ts

/-- The tasks a trace invokes, in order. -/
def invokedTasks (evs : List BatchEv) : List BatchTask :=
  evs.filterMap fun e =>
    match e with
    | BatchEv.invoke t => some t
    | _ => none

/-- The status messages a trace publishes, in order. -/
def msgEvents (evs : List BatchEv) : List (List Char) :=
  evs.filterMap fun e =>
    match e with
    | BatchEv.msg s => some s
    | _ => none

/-- The progress values a trace writes, in order. -/
def progEvents (evs : List BatchEv) : List ℚ :=
  evs.filterMap fun e =>
    match e with
    | BatchEv.prog q => some q
    | _ => none

/-- The last status message a trace publishes: the contents of
`ProcessingState.message` once the worker has finished. -/
def finalMsg (evs : List BatchEv) : Option (List Char) :=
  (msgEvents evs).getLast?

/-- The `-ss`/`-to` clipping and stream-copy output arguments added by
`process_task` only in the `Ordering::Less` branch (main.rs:758-768). -/
def clipOutputArgs (task : BatchTask) (ord : Ordering) : List (List Char) :=
  match ord with
  | Ordering.lt =>
    ["-ss".toList, task.start_time, "-to".toList, task.end_time,
     "-c:v".toList, "copy".toList, "-c:a".toList, "copy".toList,
     task.output_path]
  | _ => []

/-- The rotation-metadata arguments added by `process_task` only when
`rotation != 0` (main.rs:771-776). -/
def rotationArgs (task : BatchTask) : List (List Char) :=
  if task.rotation ≠ 0 then
    ["-metadata:s:v".toList, "rotate=".toList ++ (toString task.rotation).toList,
     "-codec".toList, "copy".toList, task.output_path]
  else []

/-- The argument list of the ffmpeg command built by `process_task`
(main.rs:748-776): `-i <input>`, then the clip/output arguments, then the
rotation arguments. Directory creation and process spawning are I/O and
are not part of the argument construction; the `compare_times` panic on a
malformed time string is modelled as `none`. -/
def process_task_args (task : BatchTask) : Option (List (List Char)) :=
  (compare_times task.start_time task.end_time).map fun ord =>
    ["-i".toList, task.input_path] ++ clipOutputArgs task ord ++ rotationArgs task

/-- Shared state of one preview target: the displayed texture, the
`*_preview_loading` flag, and the `current_*_preview_frame` slot
(main.rs:37-44), with image data modelled as raw bytes. -/
structure PreviewSlot where
  texture : Option (List Char)
  loading : Bool
  pending : Option (List Char)
deriving DecidableEq

/-- Final action of the preview worker thread (main.rs:307-312): the bytes
read from the temp file — `none` when extraction failed and the file is
missing or unreadable — are stored unconditionally into the shared frame
slot. -/
def preview_worker_finish (extracted : Option (List Char))
    (st : PreviewSlot) : PreviewSlot :=
  { st with pending := extracted }

/-- The per-frame UI drain of one preview slot (main.rs:416-428 for the
start target, 430-439 for the end target), given the image decoder:
`frame.take()` is tested, and only when it yields bytes is the texture
possibly replaced and the loading flag cleared; when the slot holds no
bytes nothing at all is changed. -/
def preview_drain (decode : List Char → Option (List Char))
    (st : PreviewSlot) : PreviewSlot :=
  match st.pending with
  | some bytes =>
    { texture :=
        match decode bytes with
        | some img => some img
        | none => st.texture,
      loading := false,
      pending := none }
  | none => st

/-- The fields of `VideoProcessor` read and written by the guard sequence
of `generate_preview` (main.rs:241-254). There is a single
`last_preview_request_time` field shared by both preview targets. -/
structure PreviewReqState where
  source_paths : List (List Char)
  start_preview_loading : Bool
  end_preview_loading : Bool
  last_preview_request_time : ℚ
deriving DecidableEq

/-- Model of the guard sequence of `generate_preview` (main.rs:241-278):
drop the request when no source file is selected or the chosen target is
already loading; drop it when less than 0.5 s of the frame clock has
elapsed since the last accepted request (either target); otherwise record
the request time, set the chosen target's loading flag and spawn a worker.
The returned Boolean tells whether a worker was spawned. -/
def generate_preview (st : PreviewReqState) (now : ℚ) (is_start_time : Bool) :
    PreviewReqState × Bool :=
  if st.source_paths.isEmpty
      || (is_start_time && st.start_preview_loading)
      || (!is_start_time && st.end_preview_loading) then
    (st, false)
  else if now - st.last_preview_request_time < 1 / 2 then
    (st, false)
  else
    ({ st with
        last_preview_request_time := now,
        start_preview_loading :=
          if is_start_time then true else st.start_preview_loading,
        end_preview_loading :=
          if is_start_time then st.end_preview_loading else true },
      true)

/-- The character class kept by the sanitizer regex
`[^A-Za-z0-9_\.\/\u{4e00}-\u{9fff}]+` (main.rs:645): ASCII letters,
digits, underscore, dot, slash, and the CJK ideograph block U+4E00-U+9FFF. -/
def allowedChar (c : Char) : Bool :=
  (65 ≤ c.toNat && c.toNat ≤ 90) || (97 ≤ c.toNat && c.toNat ≤ 122) ||
  (48 ≤ c.toNat && c.toNat ≤ 57) || c == '_' || c == '.' || c == '/' ||
  (0x4e00 ≤ c.toNat && c.toNat ≤ 0x9fff)

/-- Model of Rust `str::rsplit_once('.')` (main.rs:649): split at the last
dot, `none` when there is none. -/
def rsplitDot : List Char → Option (List Char × List Char)
  | [] => none
  | c :: rest =>
    match rsplitDot rest with
    | some (s, e) => some (c :: s, e)
    | none => if c = '.' then some ([], rest) else none

/-- Model of `sanitize_filename` (main.rs:643-664): remove every character
outside the allowed class, split at the last remaining dot into stem and
extension (the whole name and an empty extension when there is no dot —
the source's `filter` over the stem keeps every character and is the
identity), remove all dots from the stem, and rejoin with a single dot
unless the extension is empty. -/
def sanitize_filename (l : List Char) : List Char :=
  let f := l.filter allowedChar
  match rsplitDot f with
  | none => f.filter (fun c => c != '.')
  | some (stem, ext) =>
    let sstem := stem.filter (fun c => c != '.')
    if ext.isEmpty then sstem else sstem ++ '.' :: ext

/-! ### Concrete fixtures used by counterexamples and witnesses -/

/-- Fixture: first task of the three-task queue. -/
def taskA : BatchTask :=
  ⟨"a.mp4".toList, "ao.mp4".toList, "0:00:00".toList, "0:00:00".toList, 0⟩

/-- Fixture: second task of the three-task queue (the one that fails). -/
def taskB : BatchTask :=
  ⟨"b.mp4".toList, "bo.mp4".toList, "0:00:00".toList, "0:00:00".toList, 0⟩

/-- Fixture: third task of the three-task queue. -/
def taskC : BatchTask :=
  ⟨"c.mp4".toList, "co.mp4".toList, "0:00:00".toList, "0:00:00".toList, 0⟩

/-- Fixture: runner outcome map under which the task with input `b.mp4`
fails with error text `boom` and every other task succeeds. -/
def cexRun (t : BatchTask) : Except (List Char) Unit :=
  if t.input_path = "b.mp4".toList then Except.error "boom".toList
  else Except.ok ()

/-- Fixture: runner outcome map under which every task succeeds. -/
def okRun : BatchTask → Except (List Char) Unit :=
  fun _ => Except.ok ()

/-- Fixture: preview state with one selected source file, no worker
loading, and the initial request clock. -/
def previewState0 : PreviewReqState :=
  ⟨["a.mp4".toList], false, false, 0⟩

/-- Fixture: a task whose time range is reversed (start after end) and
whose rotation is zero. -/
def reversedRangeTask : BatchTask :=
  ⟨"in.mp4".toList, "out.mp4".toList, "0:00:10".toList, "0:00:05".toList, 0⟩

/-- Fixture: a task with a valid clip range (start before end) and a
90-degree rotation. -/
def clipRotTask : BatchTask :=
  ⟨"in.mp4".toList, "out.mp4".toList, "0:00:05".toList, "0:00:10".toList, 90⟩

/-! ### Lemmas about `splitOnChar` -/

theorem splitOnChar_ne_nil (sep : Char) (l : List Char) : splitOnChar sep l ≠ [] := by
  induction l with
  | nil => simp [splitOnChar]
  | cons c rest ih =>
    rw [splitOnChar]
    split
    · exact List.cons_ne_nil _ _
    · split
      · exact List.cons_ne_nil _ _
      · exact List.cons_ne_nil _ _

theorem splitOnChar_of_notMem {sep : Char} {l : List Char} (h : sep ∉ l) :
    splitOnChar sep l = [l] := by
  induction l with
  | nil => rfl
  | cons c rest ih =>
    simp only [List.mem_cons, not_or] at h
    rw [splitOnChar, if_neg (fun hc => h.1 hc.symm), ih h.2]

theorem splitOnChar_append {sep : Char} {a : List Char} (b : List Char) (h : sep ∉ a) :
    splitOnChar sep (a ++ sep :: b) = a :: splitOnChar sep b := by
  induction a with
  | nil => rw [List.nil_append, splitOnChar, if_pos rfl]
  | cons c a2 ih =>
    simp only [List.mem_cons, not_or] at h
    rw [List.cons_append, splitOnChar, if_neg (fun hc => h.1 hc.symm), ih h.2]

theorem splitOnChar_single {sep : Char} {l a : List Char}
    (h : splitOnChar sep l = [a]) : l = a ∧ sep ∉ a := by
  induction l generalizing a with
  | nil =>
    rw [splitOnChar] at h
    obtain ⟨h1, -⟩ := List.cons.injEq .. ▸ h
    exact ⟨h1 ▸ rfl, h1 ▸ List.not_mem_nil sep⟩
  | cons c rest ih =>
    by_cases hc : c = sep
    · rw [splitOnChar, if_pos hc] at h
      obtain ⟨-, h2⟩ := List.cons.injEq .. ▸ h
      exact absurd h2 (splitOnChar_ne_nil sep rest)
    · rw [splitOnChar, if_neg hc] at h
      cases hsp : splitOnChar sep rest with
      | nil => exact absurd hsp (splitOnChar_ne_nil sep rest)
      | cons p ps =>
        rw [hsp] at h
        obtain ⟨h1, h2⟩ := List.cons.injEq .. ▸ h
        obtain ⟨hr1, hr2⟩ := ih (h2 ▸ hsp)
        subst hr1
        refine ⟨h1, fun hm => ?_⟩
        rw [← h1] at hm
        rcases List.mem_cons.mp hm with hm | hm
        · exact hc hm.symm
        · exact hr2 hm

theorem splitOnChar_pair {sep : Char} {l a b : List Char}
    (h : splitOnChar sep l = [a, b]) : l = a ++ sep :: b ∧ sep ∉ a ∧ sep ∉ b := by
  induction l generalizing a with
  | nil =>
    rw [splitOnChar] at h
    obtain ⟨-, h2⟩ := List.cons.injEq .. ▸ h
    exact absurd h2.symm (List.cons_ne_nil b [])
  | cons c rest ih =>
    by_cases hc : c = sep
    · rw [splitOnChar, if_pos hc] at h
      obtain ⟨h1, h2⟩ := List.cons.injEq .. ▸ h
      obtain ⟨hr1, hr2⟩ := splitOnChar_single h2
      subst hc hr1
      exact ⟨by rw [← h1, List.nil_append], h1 ▸ List.not_mem_nil c, hr2⟩
    · rw [splitOnChar, if_neg hc] at h
      cases hsp : splitOnChar sep rest with
      | nil => exact absurd hsp (splitOnChar_ne_nil sep rest)
      | cons p ps =>
        rw [hsp] at h
        obtain ⟨h1, h2⟩ := List.cons.injEq .. ▸ h
        obtain ⟨hr1, hr2, hr3⟩ := ih (h2 ▸ hsp)
        subst h1
        refine ⟨by rw [hr1, List.cons_append], fun hm => ?_, hr3⟩
        rcases List.mem_cons.mp hm with hm | hm
        · exact hc hm.symm
        · exact hr2 hm

/-! ### Lemmas about the numeric token parser -/

theorem parseUDec_chars {l : List Char} {v : ℚ} (h : parseUDec l = some v) :
    ∀ c ∈ l, isDigitCh c = true ∨ c = '.' := by
  unfold parseUDec at h
  split at h
  · rename_i ip hsp
    split at h
    · rename_i hcond
      obtain ⟨heq, -⟩ := splitOnChar_single hsp
      subst heq
      intro c hcl
      exact Or.inl (List.all_eq_true.mp (Bool.and_eq_true .. ▸ hcond).2 c hcl)
    · exact absurd h (by simp)
  · rename_i ip fp hsp
    split at h
    · rename_i hcond
      obtain ⟨heq, -, -⟩ := splitOnChar_pair hsp
      subst heq
      have hdig := Bool.and_eq_true .. ▸ hcond
      intro c hcl
      rcases List.mem_append.mp hcl with hm | hm
      · exact Or.inl (List.all_eq_true.mp (Bool.and_eq_true .. ▸ hdig.1).2 c hm)
      · rcases List.mem_cons.mp hm with hm | hm
        · exact Or.inr hm
        · exact Or.inl (List.all_eq_true.mp hdig.2 c hm)
    · exact absurd h (by simp)
  · exact absurd h (by simp)

theorem parseDec_chars {l : List Char} {v : ℚ} (h : parseDec l = some v) :
    ∀ c ∈ l, isDigitCh c = true ∨ c = '.' ∨ c = '-' ∨ c = '+' := by
  unfold parseDec at h
  cases l with
  | nil => exact absurd h (by simp)
  | cons c rest =>
    simp only [] at h
    by_cases hm : c = '-'
    · rw [if_pos hm] at h
      obtain ⟨w, hw, -⟩ := Option.map_eq_some'.mp h
      intro d hd
      rcases List.mem_cons.mp hd with hd | hd
      · exact Or.inr (Or.inr (Or.inl (hd.trans hm)))
      · rcases parseUDec_chars hw d hd with h1 | h1
        · exact Or.inl h1
        · exact Or.inr (Or.inl h1)
    · rw [if_neg hm] at h
      by_cases hp : c = '+'
      · rw [if_pos hp] at h
        intro d hd
        rcases List.mem_cons.mp hd with hd | hd
        · exact Or.inr (Or.inr (Or.inr (hd.trans hp)))
        · rcases parseUDec_chars h d hd with h1 | h1
          · exact Or.inl h1
          · exact Or.inr (Or.inl h1)
      · rw [if_neg hp] at h
        intro d hd
        rcases parseUDec_chars h d hd with h1 | h1
        · exact Or.inl h1
        · exact Or.inr (Or.inl h1)

theorem parseDec_colon_notMem {l : List Char} {v : ℚ} (h : parseDec l = some v) :
    ':' ∉ l := by
  intro hm
  rcases parseDec_chars h ':' hm with h1 | h1 | h1 | h1
  · exact absurd h1 (by decide)
  · exact absurd h1 (by decide)
  · exact absurd h1 (by decide)
  · exact absurd h1 (by decide)

/-! ### The two shapes of a well-formed time token -/

theorem timeTokenToProgress_three {p0 p1 p2 : List Char} {h m s : ℚ}
    (h0 : parseDec p0 = some h) (h1 : parseDec p1 = some m)
    (h2 : parseDec p2 = some s) :
    timeTokenToProgress (p0 ++ ':' :: (p1 ++ ':' :: p2)) =
      some ((h * 3600 + m * 60 + s) / 100) := by
  have hsp : splitOnChar ':' (p0 ++ ':' :: (p1 ++ ':' :: p2)) = [p0, p1, p2] := by
    rw [splitOnChar_append (p1 ++ ':' :: p2) (parseDec_colon_notMem h0),
        splitOnChar_append p2 (parseDec_colon_notMem h1),
        splitOnChar_of_notMem (parseDec_colon_notMem h2)]
  unfold timeTokenToProgress
  simp only [hsp, h0, h1, h2]

theorem timeTokenToProgress_two {p0 p1 : List Char} {m s : ℚ}
    (h0 : parseDec p0 = some m) (h1 : parseDec p1 = some s) :
    timeTokenToProgress (p0 ++ ':' :: p1) = some ((m * 60 + s) / 100) := by
  have hsp : splitOnChar ':' (p0 ++ ':' :: p1) = [p0, p1] := by
    rw [splitOnChar_append p1 (parseDec_colon_notMem h0),
        splitOnChar_of_notMem (parseDec_colon_notMem h1)]
  unfold timeTokenToProgress
  simp only [hsp, h0, h1]

/-- C4: Progress parsing. A diagnostic line without the `time=` marker
yields no update (`none`); when the token following the marker splits on
`':'` into three numerically parsing parts `HH:MM:SS[.ms]` or two parts
`MM:SS[.ms]`, the parser returns the total seconds divided by 100 — in
particular `"frame=10 time=00:01:30.50 bitrate=..."` yields
`90.5/100 = 181/200 = 0.905` and `"time=01:30.50"` yields the same value;
lines whose numeric parts fail to parse yield no update. -/
theorem parse_progress_spec :
    (∀ line : List Char, containsTime line = false →
      parse_ffmpeg_progress line = none) ∧
    (∀ (p0 p1 p2 : List Char) (h m s : ℚ), parseDec p0 = some h →
      parseDec p1 = some m → parseDec p2 = some s →
      timeTokenToProgress (p0 ++ ':' :: (p1 ++ ':' :: p2)) =
        some ((h * 3600 + m * 60 + s) / 100)) ∧
    (∀ (p0 p1 : List Char) (m s : ℚ), parseDec p0 = some m →
      parseDec p1 = some s →
      timeTokenToProgress (p0 ++ ':' :: p1) = some ((m * 60 + s) / 100)) ∧
    parse_ffmpeg_progress "frame=10 time=00:01:30.50 bitrate=...".toList =
      some (181 / 200) ∧
    parse_ffmpeg_progress "time=01:30.50".toList = some (181 / 200) ∧
    parse_ffmpeg_progress "frame=10 bitrate=...".toList = none ∧
    parse_ffmpeg_progress "time=aa:bb speed=1x".toList = none := by
  refine ⟨?_, ?_, ?_, ?_, ?_, ?_, ?_⟩
  · intro line hline
    simp [parse_ffmpeg_progress, hline]
  · exact fun p0 p1 p2 h m s h0 h1 h2 => timeTokenToProgress_three h0 h1 h2
  · exact fun p0 p1 m s h0 h1 => timeTokenToProgress_two h0 h1
  · have hv : parse_ffmpeg_progress "frame=10 time=00:01:30.50 bitrate=...".toList =
        some ((((0 : ℕ) : ℚ) * 3600 + ((1 : ℕ) : ℚ) * 60 +
          (((30 : ℕ) : ℚ) + ((50 : ℕ) : ℚ) / (10 : ℚ) ^ 2)) / 100) := rfl
    rw [hv]
    norm_num
  · have hv : parse_ffmpeg_progress "time=01:30.50".toList =
        some ((((1 : ℕ) : ℚ) * 60 +
          (((30 : ℕ) : ℚ) + ((50 : ℕ) : ℚ) / (10 : ℚ) ^ 2)) / 100) := rfl
    rw [hv]
    norm_num
  · decide
  · decide

/-- Witness for C4: the theorem applied at the marker-free line
`"no marker here"` and at the concrete two-part token `1:40`. -/
theorem parse_progress_spec_witness :
    parse_ffmpeg_progress "no marker here".toList = none ∧
    timeTokenToProgress ("1".toList ++ ':' :: "40".toList) =
      some ((((1 : ℕ) : ℚ) * 60 + ((40 : ℕ) : ℚ)) / 100) :=
  ⟨parse_progress_spec.1 "no marker here".toList (by decide),
   parse_progress_spec.2.2.1 "1".toList "40".toList _ _ rfl rfl⟩

/-! ### Well-formed `HH:MM:SS` strings parse and compare -/

theorem parseTimeField_twoDigits : ∀ v, v < 100 → parseTimeField (twoDigits v) = some v := by
  decide

theorem colon_notMem_twoDigits : ∀ v, v < 100 → ':' ∉ twoDigits v := by
  decide

theorem parse_naive_time_renderHMS {h m s : Nat} (hh : h < 24) (hm : m < 60)
    (hs : s < 60) :
    parse_naive_time (renderHMS h m s) = some (h * 3600 + m * 60 + s) := by
  have hsp : splitOnChar ':' (renderHMS h m s) =
      [twoDigits h, twoDigits m, twoDigits s] := by
    unfold renderHMS
    rw [splitOnChar_append (twoDigits m ++ ':' :: twoDigits s)
          (colon_notMem_twoDigits h (by omega)),
        splitOnChar_append (twoDigits s) (colon_notMem_twoDigits m (by omega)),
        splitOnChar_of_notMem (colon_notMem_twoDigits s (by omega))]
  unfold parse_naive_time
  simp only [hsp, parseTimeField_twoDigits h (by omega),
    parseTimeField_twoDigits m (by omega), parseTimeField_twoDigits s (by omega)]
  rw [if_pos (by simp [hh, hm, hs])]

/-- C8: the clip-validity comparison `compare_times` requires both time
strings to parse as `NaiveTime`; on a malformed input such as `"abc"` the
parse fails and the `unwrap` aborts (modelled as `none` — the failure
branch is reachable), while every pair of well-formed `HH:MM:SS` strings
(in-range two-digit fields) is compared without error, yielding the
ordering of their seconds-since-midnight values. -/
theorem compare_times_spec :
    compare_times "abc".toList "0:00:00".toList = none ∧
    (∀ h1 m1 s1 h2 m2 s2 : Nat, h1 < 24 → m1 < 60 → s1 < 60 →
      h2 < 24 → m2 < 60 → s2 < 60 →
      compare_times (renderHMS h1 m1 s1) (renderHMS h2 m2 s2) =
        some (compare (h1 * 3600 + m1 * 60 + s1) (h2 * 3600 + m2 * 60 + s2))) := by
  refine ⟨by decide, ?_⟩
  intro h1 m1 s1 h2 m2 s2 hh1 hm1 hs1 hh2 hm2 hs2
  unfold compare_times
  simp only [parse_naive_time_renderHMS hh1 hm1 hs1,
    parse_naive_time_renderHMS hh2 hm2 hs2]

/-- Witness for C8: the theorem applied at `00:00:10` versus `00:00:05`. -/
theorem compare_times_spec_witness :
    compare_times (renderHMS 0 0 10) (renderHMS 0 0 5) =
      some (compare (0 * 3600 + 0 * 60 + 10) (0 * 3600 + 0 * 60 + 5)) :=
  compare_times_spec.2 0 0 10 0 0 5 (by decide) (by decide) (by decide)
    (by decide) (by decide) (by decide)

/-! ### Projections of batch worker traces -/

@[simp] theorem invokedTasks_nil : invokedTasks [] = [] := rfl

@[simp] theorem invokedTasks_cons_flag (b : Bool) (evs : List BatchEv) :
    invokedTasks (BatchEv.flag b :: evs) = invokedTasks evs := rfl

@[simp] theorem invokedTasks_cons_msg (s : List Char) (evs : List BatchEv) :
    invokedTasks (BatchEv.msg s :: evs) = invokedTasks evs := rfl

@[simp] theorem invokedTasks_cons_prog (q : ℚ) (evs : List BatchEv) :
    invokedTasks (BatchEv.prog q :: evs) = invokedTasks evs := rfl

@[simp] theorem invokedTasks_cons_invoke (t : BatchTask) (evs : List BatchEv) :
    invokedTasks (BatchEv.invoke t :: evs) = t :: invokedTasks evs := rfl

@[simp] theorem invokedTasks_append (a b : List BatchEv) :
    invokedTasks (a ++ b) = invokedTasks a ++ invokedTasks b := by
  unfold invokedTasks
  rw [List.filterMap_append]

@[simp] theorem msgEvents_nil : msgEvents [] = [] := rfl

@[simp] theorem msgEvents_cons_flag (b : Bool) (evs : List BatchEv) :
    msgEvents (BatchEv.flag b :: evs) = msgEvents evs := rfl

@[simp] theorem msgEvents_cons_msg (s : List Char) (evs : List BatchEv) :
    msgEvents (BatchEv.msg s :: evs) = s :: msgEvents evs := rfl

@[simp] theorem msgEvents_cons_prog (q : ℚ) (evs : List BatchEv) :
    msgEvents (BatchEv.prog q :: evs) = msgEvents evs := rfl

@[simp] theorem msgEvents_cons_invoke (t : BatchTask) (evs : List BatchEv) :
    msgEvents (BatchEv.invoke t :: evs) = msgEvents evs := rfl

@[simp] theorem msgEvents_append (a b : List BatchEv) :
    msgEvents (a ++ b) = msgEvents a ++ msgEvents b := by
  unfold msgEvents
  rw [List.filterMap_append]

@[simp] theorem progEvents_nil : progEvents [] = [] := rfl

@[simp] theorem progEvents_cons_flag (b : Bool) (evs : List BatchEv) :
    progEvents (BatchEv.flag b :: evs) = progEvents evs := rfl

@[simp] theorem progEvents_cons_msg (s : List Char) (evs : List BatchEv) :
    progEvents (BatchEv.msg s :: evs) = progEvents evs := rfl

@[simp] theorem progEvents_cons_prog (q : ℚ) (evs : List BatchEv) :
    progEvents (BatchEv.prog q :: evs) = q :: progEvents evs := rfl

@[simp] theorem progEvents_cons_invoke (t : BatchTask) (evs : List BatchEv) :
    progEvents (BatchEv.invoke t :: evs) = progEvents evs := rfl

@[simp] theorem progEvents_append (a b : List BatchEv) :
    progEvents (a ++ b) = progEvents a ++ progEvents b := by
  unfold progEvents
  rw [List.filterMap_append]

theorem invokedTasks_okEvents (ts : List BatchTask) :
    invokedTasks (okEvents ts) = ts := by
  induction ts with
  | nil => rfl
  | cons t ts ih => simp [okEvents, ih]

theorem msgEvents_okEvents (ts : List BatchTask) :
    msgEvents (okEvents ts) = ts.map processingMsg := by
  induction ts with
  | nil => rfl
  | cons t ts ih => simp [okEvents, ih]

theorem progEvents_okEvents (ts : List BatchTask) :
    progEvents (okEvents ts) = [] := by
  induction ts with
  | nil => rfl
  | cons t ts ih => simp [okEvents, ih]

theorem taskLoopEvents_ok_append {run : BatchTask → Except (List Char) Unit}
    {ts1 : List BatchTask} (rest : List BatchTask)
    (h : ∀ u ∈ ts1, run u = Except.ok ()) :
    taskLoopEvents run (ts1 ++ rest) = okEvents ts1 ++ taskLoopEvents run rest := by
  induction ts1 with
  | nil => rfl
  | cons t ts ih =>
    have ht : run t = Except.ok () := h t (List.mem_cons_self ..)
    have ih2 := ih (fun u hu => h u (List.mem_cons_of_mem _ hu))
    simp only [List.cons_append, taskLoopEvents, ht, okEvents]
    exact congrArg (fun x => BatchEv.msg (processingMsg t) ::
      BatchEv.invoke t :: x) ih2

theorem taskLoopEvents_error {run : BatchTask → Except (List Char) Unit}
    {t : BatchTask} {e : List Char} (ts2 : List BatchTask)
    (ht : run t = Except.error e) :
    taskLoopEvents run (t :: ts2) =
      [BatchEv.msg (processingMsg t), BatchEv.invoke t,
       BatchEv.msg (errorMsg e)] := by
  simp only [taskLoopEvents, ht]

theorem progEvents_taskLoop (run : BatchTask → Except (List Char) Unit)
    (ts : List BatchTask) : progEvents (taskLoopEvents run ts) = [] := by
  induction ts with
  | nil => rfl
  | cons t ts ih =>
    simp only [taskLoopEvents]
    cases hrt : run t with
    | ok u => simp [ih]
    | error e => simp

theorem finalMsg_batchWorker (run : BatchTask → Except (List Char) Unit)
    (ts : List BatchTask) : finalMsg (batchWorkerEvents run ts) = some doneMsg := by
  unfold finalMsg batchWorkerEvents
  simp [List.getLast?_concat]

/-- C1 (amended): when a task's runner invocation fails, no task after it
in the queue is invoked — the invoked tasks are exactly the successful
prefix plus the failing task — and the error text is published at that
moment; but the worker then unconditionally publishes `处理完成`, so the
status message remaining after the run is the completion message, not the
error text. -/
theorem batch_error_truncates_queue {run : BatchTask → Except (List Char) Unit}
    {ts1 : List BatchTask} {t : BatchTask} {e : List Char} (ts2 : List BatchTask)
    (h1 : ∀ u ∈ ts1, run u = Except.ok ()) (h2 : run t = Except.error e) :
    invokedTasks (batchWorkerEvents run (ts1 ++ t :: ts2)) = ts1 ++ [t] ∧
    BatchEv.msg (errorMsg e) ∈ batchWorkerEvents run (ts1 ++ t :: ts2) ∧
    finalMsg (batchWorkerEvents run (ts1 ++ t :: ts2)) = some doneMsg := by
  have hloop : taskLoopEvents run (ts1 ++ t :: ts2) =
      okEvents ts1 ++ [BatchEv.msg (processingMsg t), BatchEv.invoke t,
        BatchEv.msg (errorMsg e)] := by
    rw [taskLoopEvents_ok_append (t :: ts2) h1, taskLoopEvents_error ts2 h2]
  refine ⟨?_, ?_, finalMsg_batchWorker run (ts1 ++ t :: ts2)⟩
  · unfold batchWorkerEvents
    rw [hloop]
    simp [invokedTasks_okEvents]
  · unfold batchWorkerEvents
    rw [hloop]
    simp

/-- Witness for C1 (amended) at the concrete three-task queue where the
second task fails with error text `boom`. -/
theorem batch_error_truncates_queue_witness :
    invokedTasks (batchWorkerEvents cexRun ([taskA] ++ taskB :: [taskC])) =
      [taskA] ++ [taskB] ∧
    BatchEv.msg (errorMsg "boom".toList) ∈
      batchWorkerEvents cexRun ([taskA] ++ taskB :: [taskC]) ∧
    finalMsg (batchWorkerEvents cexRun ([taskA] ++ taskB :: [taskC])) =
      some doneMsg :=
  batch_error_truncates_queue [taskC]
    (fun u hu => by rcases List.mem_singleton.mp hu with rfl; rfl) rfl

/-- C1 counterexample: in the three-task run where the second task fails
with `boom`, the third task is indeed never invoked, but the status message
left in `ProcessingState` after the run is `处理完成`, which differs from
the error text `错误: boom` — the published status after the run does not
reflect the failing task's error text. -/
theorem batch_final_message_cex :
    cexRun taskB = Except.error "boom".toList ∧
    finalMsg (batchWorkerEvents cexRun [taskA, taskB, taskC]) = some doneMsg ∧
    doneMsg ≠ errorMsg "boom".toList := by
  refine ⟨rfl, by decide, by decide⟩

/-- C2 (code bug): the worker loop of main.rs:590-596 never reads the
shared `processing` flag — the model of the loop takes no stop input at
all because the source loop consults nothing but the queue snapshot and
the per-task results. Consequently, whatever a stop request does to the
flag, every task of a queue whose invocations succeed is still invoked. -/
theorem stop_flag_ignored_by_worker {run : BatchTask → Except (List Char) Unit}
    {ts : List BatchTask} (h : ∀ t ∈ ts, run t = Except.ok ()) :
    invokedTasks (batchWorkerEvents run ts) = ts := by
  have h2 := @taskLoopEvents_ok_append run ts [] h
  rw [List.append_nil] at h2
  unfold batchWorkerEvents
  rw [h2]
  simp [invokedTasks_okEvents, taskLoopEvents]

/-- Witness for C2 at a concrete two-task queue: both tasks are invoked
(there is no point in the loop at which a cleared flag could stop it). -/
theorem stop_flag_ignored_by_worker_witness :
    invokedTasks (batchWorkerEvents okRun [taskA, taskC]) = [taskA, taskC] :=
  stop_flag_ignored_by_worker (fun _ _ => rfl)

/-- C3 counterexample: the single stderr line
`frame=1 time=00:02:30.00 bitrate=2000kbits/s` drives the published
progress to `150/100 = 3/2`, which lies outside `[0, 1]`. -/
theorem progress_exceeds_one_cex :
    progressAfter ["frame=1 time=00:02:30.00 bitrate=2000kbits/s".toList] = 3 / 2 ∧
    ¬ (3 / 2 : ℚ) ≤ 1 := by
  constructor
  · have hv : progressAfter ["frame=1 time=00:02:30.00 bitrate=2000kbits/s".toList] =
        (((0 : ℕ) : ℚ) * 3600 + ((2 : ℕ) : ℚ) * 60 +
          (((30 : ℕ) : ℚ) + ((0 : ℕ) : ℚ) / (10 : ℚ) ^ 2)) / 100 := rfl
    rw [hv]
    norm_num
  · norm_num

/-- C3 (amended): the published progress is exactly the parser's
seconds-divided-by-100 value with no clamping to `[0, 1]` (an unparsable
line leaves the previous value), and the batch worker writes progress
exactly once per run — the reset to `0` after the run completes or aborts;
there is no reset when the run starts. -/
theorem progress_unclamped_spec :
    (∀ (p : ℚ) (line : List Char) (q : ℚ),
      parse_ffmpeg_progress line = some q → updateProgress p line = q) ∧
    (∀ (p : ℚ) (line : List Char),
      parse_ffmpeg_progress line = none → updateProgress p line = p) ∧
    (∀ (run : BatchTask → Except (List Char) Unit) (ts : List BatchTask),
      progEvents (batchWorkerEvents run ts) = [0]) := by
  refine ⟨?_, ?_, ?_⟩
  · intro p line q h
    unfold updateProgress
    rw [h]
  · intro p line h
    unfold updateProgress
    rw [h]
  · intro run ts
    unfold batchWorkerEvents
    simp [progEvents_taskLoop]

/-- Witness for C3 (amended): the stored value for the line `time=9:20` is
the parsed `560/100` with no clamping, and a concrete successful run
writes progress exactly once, resetting it to `0` at the end. -/
theorem progress_unclamped_spec_witness :
    updateProgress 0 "time=9:20".toList =
      (((9 : ℕ) : ℚ) * 60 + ((20 : ℕ) : ℚ)) / 100 ∧
    progEvents (batchWorkerEvents okRun [taskA]) = [0] :=
  ⟨progress_unclamped_spec.1 0 "time=9:20".toList _ rfl,
   progress_unclamped_spec.2.2 okRun [taskA]⟩

/-- C5 counterexample: for the reversed-range task (`start 0:00:10`,
`end 0:00:05`) with rotation 0, the built invocation has no `-ss`/`-to`
and is not an error — but it is exactly `ffmpeg -i in.mp4`, containing
neither the output path nor any `copy` codec argument, so the file is not
processed as a full-file copy: the invocation names no output at all. -/
theorem no_clip_no_output_cex :
    process_task_args reversedRangeTask = some ["-i".toList, "in.mp4".toList] ∧
    "out.mp4".toList ∉ ["-i".toList, "in.mp4".toList] ∧
    "copy".toList ∉ ["-i".toList, "in.mp4".toList] ∧
    "-ss".toList ∉ ["-i".toList, "in.mp4".toList] := by
  refine ⟨by decide, by decide, by decide, by decide⟩

/-- C5 (amended): for every task whose start time is not strictly earlier
than its end time (both times parsing), no `-ss`/`-to` clip arguments are
added and the argument builder takes no error branch; the full command is
`-i <input>` followed only by the rotation arguments — so with rotation 0
it is exactly `-i <input>`, naming no output file, and no full-file copy
is produced. -/
theorem no_clip_fallback {task : BatchTask} {ord : Ordering}
    (hc : compare_times task.start_time task.end_time = some ord)
    (hne : ord ≠ Ordering.lt) :
    clipOutputArgs task ord = [] ∧
    process_task_args task =
      some (["-i".toList, task.input_path] ++ rotationArgs task) ∧
    (task.rotation = 0 →
      process_task_args task = some ["-i".toList, task.input_path]) := by
  have hclip : clipOutputArgs task ord = [] := by
    cases ord with
    | lt => exact absurd rfl hne
    | eq => rfl
    | gt => rfl
  refine ⟨hclip, ?_, ?_⟩
  · unfold process_task_args
    rw [hc]
    simp [hclip]
  · intro hrot
    unfold process_task_args
    rw [hc]
    simp [hclip, rotationArgs, hrot]

/-- Witness for C5 (amended) at the concrete reversed-range task. -/
theorem no_clip_fallback_witness :
    clipOutputArgs reversedRangeTask Ordering.gt = [] ∧
    process_task_args reversedRangeTask =
      some (["-i".toList, reversedRangeTask.input_path] ++
        rotationArgs reversedRangeTask) ∧
    (reversedRangeTask.rotation = 0 →
      process_task_args reversedRangeTask =
        some ["-i".toList, reversedRangeTask.input_path]) :=
  no_clip_fallback (by decide) (by decide)

/-- C10: the constructed ffmpeg command names the output path (and carries
the codec arguments) only when the clip range is strictly increasing or
the rotation is non-zero; when rotation is 0 and the range is not strictly
increasing, the command is exactly `-i <input>` and names no output file,
so the invocation produces no output. -/
theorem process_task_output_gating {task : BatchTask} {ord : Ordering}
    (hc : compare_times task.start_time task.end_time = some ord) :
    (task.rotation = 0 → ord ≠ Ordering.lt →
      process_task_args task = some ["-i".toList, task.input_path]) ∧
    (ord = Ordering.lt ∨ task.rotation ≠ 0 →
      ∃ args, process_task_args task = some args ∧ task.output_path ∈ args) := by
  constructor
  · intro hrot hne
    have hclip : clipOutputArgs task ord = [] := by
      cases ord with
      | lt => exact absurd rfl hne
      | eq => rfl
      | gt => rfl
    unfold process_task_args
    rw [hc]
    simp [hclip, rotationArgs, hrot]
  · intro hor
    refine ⟨["-i".toList, task.input_path] ++ clipOutputArgs task ord ++
      rotationArgs task, ?_, ?_⟩
    · unfold process_task_args
      rw [hc]
      rfl
    · rcases hor with hlt | hrot
      · subst hlt
        simp [clipOutputArgs]
      · simp [rotationArgs, hrot]

/-- Witness for C10 at the concrete valid-range 90-degree task. -/
theorem process_task_output_gating_witness :
    (clipRotTask.rotation = 0 → Ordering.lt ≠ Ordering.lt →
      process_task_args clipRotTask = some ["-i".toList, clipRotTask.input_path]) ∧
    (Ordering.lt = Ordering.lt ∨ clipRotTask.rotation ≠ 0 →
      ∃ args, process_task_args clipRotTask = some args ∧
        clipRotTask.output_path ∈ args) :=
  process_task_output_gating (by decide)

/-- C6 (code bug): when frame extraction fails, the worker stores `none`
into the shared slot and the UI drain then changes nothing: the existing
preview texture is left unchanged and no error is surfaced, but the
target's loading flag is NOT cleared — it stays `true`. The flag is
cleared only on the path where extracted bytes are present (second
conjunct, with extracted bytes `B`). -/
theorem preview_error_keeps_loading :
    preview_drain (fun _ => none)
      (preview_worker_finish none ⟨some "T".toList, true, none⟩) =
      ⟨some "T".toList, true, none⟩ ∧
    (preview_drain (fun _ => none)
      (preview_worker_finish (some "B".toList)
        ⟨some "T".toList, true, none⟩)).loading = false := by
  refine ⟨by decide, by decide⟩

/-- C7 counterexample: with one source file selected and neither target
loading, a first request to the start target at t = 10 s is accepted and
spawns a worker; a first-ever request to the end target 0.3 s later is
dropped, although every per-target guard for the end target passes — the
two targets share the single `last_preview_request_time` field, so they
are not debounced independently of each other. -/
theorem preview_debounce_not_independent_cex :
    (generate_preview previewState0 10 true).2 = true ∧
    generate_preview (generate_preview previewState0 10 true).1
        (103 / 10) false =
      ((generate_preview previewState0 10 true).1, false) := by
  have h1 : generate_preview previewState0 10 true =
      (⟨["a.mp4".toList], true, false, 10⟩, true) := by
    unfold generate_preview previewState0
    norm_num
  refine ⟨by rw [h1], ?_⟩
  rw [h1]
  unfold generate_preview
  norm_num

/-- C7 (amended): a preview request is dropped with no side effect unless
every guard passes, and acceptance requires a selected source file and at
least 0.5 s since the last accepted request; but the 0.5 s debounce window
is shared between the two targets: after an accepted request, any request
within 0.5 s — to either target — is a no-op, so of two requests within
0.5 s only the first spawns a worker, and the two targets are not
debounced independently. -/
theorem preview_debounce_shared {st : PreviewReqState} {n1 : ℚ} {b : Bool} :
    ((generate_preview st n1 b).2 = false → (generate_preview st n1 b).1 = st) ∧
    ((generate_preview st n1 b).2 = true →
      1 / 2 ≤ n1 - st.last_preview_request_time ∧ st.source_paths ≠ []) ∧
    (∀ (n2 : ℚ) (b2 : Bool), (generate_preview st n1 b).2 = true →
      n2 - n1 < 1 / 2 →
      generate_preview (generate_preview st n1 b).1 n2 b2 =
        ((generate_preview st n1 b).1, false)) := by
  by_cases c1 : (st.source_paths.isEmpty || (b && st.start_preview_loading) ||
      (!b && st.end_preview_loading)) = true
  · have hgen : generate_preview st n1 b = (st, false) := by
      unfold generate_preview
      rw [if_pos c1]
    refine ⟨fun _ => by rw [hgen], fun h => ?_, fun n2 b2 h _ => ?_⟩
    · rw [hgen] at h
      exact absurd h (by simp)
    · rw [hgen] at h
      exact absurd h (by simp)
  · by_cases c2 : n1 - st.last_preview_request_time < 1 / 2
    · have hgen : generate_preview st n1 b = (st, false) := by
        unfold generate_preview
        rw [if_neg c1, if_pos c2]
      refine ⟨fun _ => by rw [hgen], fun h => ?_, fun n2 b2 h _ => ?_⟩
      · rw [hgen] at h
        exact absurd h (by simp)
      · rw [hgen] at h
        exact absurd h (by simp)
    · have hgen : generate_preview st n1 b =
          ({ st with
              last_preview_request_time := n1,
              start_preview_loading :=
                if b then true else st.start_preview_loading,
              end_preview_loading :=
                if b then st.end_preview_loading else true }, true) := by
        unfold generate_preview
        rw [if_neg c1, if_neg c2]
      simp only [Bool.or_eq_true, not_or] at c1
      refine ⟨fun h => ?_, fun _ => ⟨le_of_not_lt c2, fun hnil => ?_⟩, ?_⟩
      · rw [hgen] at h
        exact absurd h (by simp)
      · exact c1.1.1 (by rw [hnil]; rfl)
      · intro n2 b2 _ hlt
        rw [hgen]
        by_cases d1 : ((({ st with
              last_preview_request_time := n1,
              start_preview_loading :=
                if b then true else st.start_preview_loading,
              end_preview_loading :=
                if b then st.end_preview_loading else true } :
            PreviewReqState)).source_paths.isEmpty ||
            (b2 && (if b then true else st.start_preview_loading)) ||
            (!b2 && (if b then st.end_preview_loading else true))) = true
        · unfold generate_preview
          rw [if_pos d1]
        · unfold generate_preview
          rw [if_neg d1, if_pos hlt]

/-- Witness for C7 (amended): a request with no source file selected is
dropped and leaves the state unchanged. -/
theorem preview_debounce_shared_witness :
    (generate_preview ⟨[], false, false, 0⟩ 3 true).1 =
      (⟨[], false, false, 0⟩ : PreviewReqState) :=
  (@preview_debounce_shared ⟨[], false, false, 0⟩ 3 true).1 rfl

/-! ### Lemmas about `rsplitDot` and the sanitizer -/

theorem rsplitDot_of_notMem {l : List Char} (h : '.' ∉ l) : rsplitDot l = none := by
  induction l with
  | nil => rfl
  | cons c rest ih =>
    simp only [List.mem_cons, not_or] at h
    rw [rsplitDot, ih h.2, if_neg (fun hc => h.1 hc.symm)]

theorem notMem_of_rsplitDot_none {l : List Char} (h : rsplitDot l = none) :
    '.' ∉ l := by
  induction l with
  | nil => exact List.not_mem_nil _
  | cons c rest ih =>
    rw [rsplitDot] at h
    cases hr : rsplitDot rest with
    | some pe =>
      obtain ⟨s, e⟩ := pe
      rw [hr] at h
      exact absurd h (by simp)
    | none =>
      rw [hr] at h
      by_cases hc : c = '.'
      · rw [if_pos hc] at h
        exact absurd h (by simp)
      · intro hm
        rcases List.mem_cons.mp hm with hm | hm
        · exact hc hm.symm
        · exact ih hr hm

theorem rsplitDot_eq_some {l s e : List Char} (h : rsplitDot l = some (s, e)) :
    l = s ++ '.' :: e ∧ '.' ∉ e := by
  induction l generalizing s e with
  | nil => exact absurd h (by simp [rsplitDot])
  | cons c rest ih =>
    rw [rsplitDot] at h
    cases hr : rsplitDot rest with
    | some pe =>
      obtain ⟨s2, e2⟩ := pe
      rw [hr] at h
      simp only [Option.some.injEq, Prod.mk.injEq] at h
      obtain ⟨⟨h1, h2⟩, -⟩ := And.intro h trivial
      obtain ⟨hr1, hr2⟩ := ih (by rw [hr, h2])
      constructor
      · rw [← h1, List.cons_append, ← hr1]
      · exact hr2
    | none =>
      rw [hr] at h
      by_cases hc : c = '.'
      · rw [if_pos hc] at h
        simp only [Option.some.injEq, Prod.mk.injEq] at h
        obtain ⟨h1, h2⟩ := h
        subst hc
        constructor
        · rw [← h1, List.nil_append, ← h2]
        · rw [← h2]
          exact notMem_of_rsplitDot_none hr
      · rw [if_neg hc] at h
        exact absurd h (by simp)

theorem rsplitDot_append {s e : List Char} (hs : '.' ∉ s) (he : '.' ∉ e) :
    rsplitDot (s ++ '.' :: e) = some (s, e) := by
  induction s with
  | nil =>
    rw [List.nil_append, rsplitDot, rsplitDot_of_notMem he, if_pos rfl]
  | cons c s2 ih =>
    simp only [List.mem_cons, not_or] at hs
    rw [List.cons_append, rsplitDot, ih hs.2]

theorem sanitize_eq_of_none {l : List Char}
    (hr : rsplitDot (l.filter allowedChar) = none) :
    sanitize_filename l = (l.filter allowedChar).filter (fun c => c != '.') := by
  simp only [sanitize_filename, hr]

theorem sanitize_eq_of_some_nil {l s : List Char}
    (hr : rsplitDot (l.filter allowedChar) = some (s, [])) :
    sanitize_filename l = s.filter (fun c => c != '.') := by
  simp only [sanitize_filename, hr, List.isEmpty_nil, if_pos]

theorem sanitize_eq_of_some_cons {l s e : List Char}
    (hr : rsplitDot (l.filter allowedChar) = some (s, e)) (he : e ≠ []) :
    sanitize_filename l = s.filter (fun c => c != '.') ++ '.' :: e := by
  cases e with
  | nil => exact absurd rfl he
  | cons x xs =>
    simp only [sanitize_filename, hr, List.isEmpty_cons]
    rw [if_neg (by simp)]

theorem sanitize_dotfree_case {l q : List Char}
    (heq : sanitize_filename l = q.filter (fun c => c != '.'))
    (hq : ∀ c ∈ q, allowedChar c = true) :
    (∀ c ∈ sanitize_filename l, allowedChar c = true) ∧
    (sanitize_filename l).count '.' ≤ 1 ∧
    sanitize_filename (sanitize_filename l) = sanitize_filename l := by
  have hnd : '.' ∉ sanitize_filename l := by
    rw [heq]
    intro hm
    have h2 := (List.mem_filter.mp hm).2
    simp at h2
  have hch : ∀ c ∈ sanitize_filename l, allowedChar c = true := by
    intro c hc
    rw [heq] at hc
    exact hq c (List.mem_filter.mp hc).1
  refine ⟨hch, ?_, ?_⟩
  · rw [List.count_eq_zero.mpr hnd]
    omega
  · have hfilter : (sanitize_filename l).filter allowedChar = sanitize_filename l :=
      List.filter_eq_self.mpr hch
    have hrd : rsplitDot ((sanitize_filename l).filter allowedChar) = none := by
      rw [hfilter]
      exact rsplitDot_of_notMem hnd
    rw [sanitize_eq_of_none hrd, hfilter]
    exact List.filter_eq_self.mpr fun c hc => by
      simp only [bne_iff_ne, ne_eq]
      exact fun hce => hnd (hce ▸ hc)

/-- C9: `sanitize_filename` removes every character outside the allowed
class (ASCII alphanumerics, underscore, slash, dot, and CJK ideographs
U+4E00-U+9FFF), leaves at most one dot (the extension separator) in the
result, and is idempotent. -/
theorem sanitize_filename_spec (l : List Char) :
    (∀ c ∈ sanitize_filename l, allowedChar c = true) ∧
    (sanitize_filename l).count '.' ≤ 1 ∧
    sanitize_filename (sanitize_filename l) = sanitize_filename l := by
  have hfq : ∀ c ∈ l.filter allowedChar, allowedChar c = true :=
    fun c hc => (List.mem_filter.mp hc).2
  cases hr : rsplitDot (l.filter allowedChar) with
  | none => exact sanitize_dotfree_case (sanitize_eq_of_none hr) hfq
  | some pe =>
    obtain ⟨s, e⟩ := pe
    obtain ⟨hfe, hde⟩ := rsplitDot_eq_some hr
    have hsq : ∀ c ∈ s, allowedChar c = true := fun c hc =>
      hfq c (by rw [hfe]; exact List.mem_append_left _ hc)
    have heChars : ∀ c ∈ e, allowedChar c = true := fun c hc =>
      hfq c (by rw [hfe]; exact List.mem_append_right _ (List.mem_cons_of_mem _ hc))
    cases e with
    | nil => exact sanitize_dotfree_case (sanitize_eq_of_some_nil hr) hsq
    | cons x xs =>
      have hne : x :: xs ≠ [] := by simp
      have heq := sanitize_eq_of_some_cons hr hne
      have hnds : '.' ∉ s.filter (fun c => c != '.') := by
        intro hm
        have h2 := (List.mem_filter.mp hm).2
        simp at h2
      have hch : ∀ c ∈ sanitize_filename l, allowedChar c = true := by
        intro c hc
        rw [heq] at hc
        rcases List.mem_append.mp hc with hm | hm
        · exact hsq c (List.mem_filter.mp hm).1
        · rcases List.mem_cons.mp hm with hm | hm
          · subst hm
            decide
          · exact heChars c hm
      refine ⟨hch, ?_, ?_⟩
      · rw [heq, List.count_append, List.count_eq_zero.mpr hnds, List.count_cons]
        rw [List.count_eq_zero.mpr hde]
        simp
      · have hfilter : (sanitize_filename l).filter allowedChar =
            sanitize_filename l := List.filter_eq_self.mpr hch
        have hrd : rsplitDot ((sanitize_filename l).filter allowedChar) =
            some (s.filter (fun c => c != '.'), x :: xs) := by
          rw [hfilter, heq]
          exact rsplitDot_append hnds hde
        have heqd := sanitize_eq_of_some_cons hrd hne
        rw [heqd]
        rw [List.filter_eq_self.mpr (fun c hc => (List.mem_filter.mp hc).2)]
        exact heq.symm

/-- Witness for C9: the theorem applied at the concrete name `a..b c.txt`
(its sanitized form keeps one dot, every kept character is allowed, and a
second sanitization changes nothing). -/
theorem sanitize_filename_spec_witness :
    allowedChar 'a' = true ∧
    (sanitize_filename "a..b c.txt".toList).count '.' ≤ 1 ∧
    sanitize_filename (sanitize_filename "a..b c.txt".toList) =
      sanitize_filename "a..b c.txt".toList :=
  ⟨(sanitize_filename_spec "a..b c.txt".toList).1 'a' (by decide),
   (sanitize_filename_spec "a..b c.txt".toList).2.1,
   (sanitize_filename_spec "a..b c.txt".toList).2.2⟩
